import Mathlib

/-!
A verification development for the filesystem-backed reference database
(`refdb_fs.c`): a shallow embedding of its data model and operations,
together with theorems checking the natural-language specification against
the embedded code.

Conventions of the embedding:
* byte strings (C strings, file contents) are lists of characters; all the
  data handled here is ASCII, where bytes and characters agree;
* the `git_strmap` hash table is an association list with unique keys; the
  iteration order of the hash table is not observable in any property proved
  here;
* machine I/O (`git_futils_readbuffer_updated`, `git_buf_rtrim`, constants
  from headers outside the translated file) is modelled from the spec, as
  marked in the corresponding doc comments;
* out-of-memory paths, filesystem permission errors and directory handling
  (the empty-directory removal in `loose_write`) are not modelled.
-/

set_option maxRecDepth 10000

deriving instance DecidableEq for Except

namespace RefdbFs

/-- Byte strings are modelled as lists of characters. -/
abbrev Str := List Char

/-- Error kinds of the backend, in the spec's vocabulary (the source signals
them as negative return codes plus a thread-local message; distinct kinds
carry distinct messages). -/
inductive Err
  | notFound
  | alreadyExists
  | pathCollision
  | corruptPacked
  | corruptLoose
  | ioErr
  | odbFail
deriving DecidableEq

/-- The PEELING_NONE / PEELING_STANDARD / PEELING_FULL enum. -/
inductive PeelMode
  | peelNone
  | peelStandard
  | peelFull
deriving DecidableEq

/-- An object id: 20 raw bytes (`git_oid.id`). -/
abbrev Oid := List Nat

/-- The all-zero oid, the value a `calloc`ed oid field holds. -/
def zeroOid : Oid := List.replicate 20 0

/-- A well-formed oid value: 20 bytes. -/
def validOidB (o : Oid) : Bool := o.length == 20 && o.all (fun b => b < 256)

/-- Modelled from the spec: hex digits are `0-9a-f` ("40 lowercase hex
characters"; `git_oid_fromstr` lives in the out-of-scope oid module). -/
def hexVal (c : Char) : Option Nat :=
  if 48 ≤ c.toNat ∧ c.toNat ≤ 57 then some (c.toNat - 48)
  else if 97 ≤ c.toNat ∧ c.toNat ≤ 102 then some (c.toNat - 87)
  else none

/-- The lowercase hex digit for a value below 16. -/
def hexDigit (n : Nat) : Char :=
  if n < 10 then Char.ofNat (48 + n) else Char.ofNat (87 + n)

/-- One byte as two lowercase hex digits. -/
def byteHex (b : Nat) : Str := [hexDigit (b / 16), hexDigit (b % 16)]

/-- `git_oid_fmt`: 40 lowercase hex characters. -/
def oidFmt (o : Oid) : Str := (o.map byteHex).flatten

/-- `strstr` as a boolean: does the pattern occur contiguously in the
string? -/
def strstrB (pat : Str) : Str → Bool
  | [] => pat.isEmpty
  | c :: tl => pat.isPrefixOf (c :: tl) || strstrB pat tl

/-- Helper for `git_oid_fromstr`: read `n` bytes (2·n hex characters) from
the front of the buffer; fail on any non-hex character, including a
premature end of the buffer (the C scan runs into the NUL terminator). -/
def oidAux : Nat → Str → Option (List Nat)
  | 0, _ => some []
  | n + 1, c1 :: c2 :: rest =>
    match hexVal c1, hexVal c2, oidAux n rest with
    | some h, some l, some tl => some ((16 * h + l) :: tl)
    | _, _, _ => none
  | _ + 1, [] => none
  | _ + 1, [_] => none

/-- `git_oid_fromstr`: exactly 40 hex characters from the front of the
buffer; characters beyond the 40th are ignored. -/
def oidFromChars (cs : Str) : Option Oid := oidAux 20 cs

/-- `struct packref`: oid, peel oid, flag bits, name. The four bits of the
`char` flag bitset are modelled as four booleans; `calloc` starts them all
clear with a zero peel. -/
structure Packref where
  oid : Oid
  peel : Oid
  hasPeel : Bool
  wasLoose : Bool
  cannotPeel : Bool
  shadowed : Bool
  name : Str
deriving DecidableEq

/-- The `git_strmap` of packed entries, keyed by `Packref.name`. -/
abbrev RefMap := List Packref

def mapFind (m : RefMap) (n : Str) : Option Packref := m.find? (fun e => e.name == n)

def mapHas (m : RefMap) (n : Str) : Bool := (mapFind m n).isSome

/-- `git_strmap_insert` / `git_strmap_insert2`: replace the value when the
key is present, append it otherwise (keys are unique in a strmap). -/
def mapInsert (m : RefMap) (e : Packref) : RefMap :=
  if mapHas m e.name then m.map (fun x => if x.name == e.name then e else x)
  else m ++ [e]

/-- `git_strmap_delete_at` for the entry with the given name. -/
def mapRemove (m : RefMap) (n : Str) : RefMap := m.filter (fun e => !(e.name == n))

/-- The backend state: the physical root (`backend->path`), the loose files
under the root keyed by reference name, the packed-refs file content with
its modification time, and the refcache (the packfile strmap, which is NULL
when `cache = none`; `packfile_time`; `peeling_mode`). Filesystem
directories are not modelled. -/
structure State where
  root : Str
  loose : List (Str × Str)
  packedFile : Option (Str × Int)
  cache : Option RefMap
  cacheTime : Int
  peelingMode : PeelMode
deriving DecidableEq

/-- The packed map currently in the cache (empty when the strmap is NULL). -/
def cacheList (s : State) : RefMap := s.cache.getD []

def hdrChars : Str := "# pack-refs with: ".data
def tagsDirChars : Str := "refs/tags/".data
def symrefChars : Str := "ref: ".data
def refsDirChars : Str := "refs/".data
def fullyPeeledTok : Str := " fully-peeled ".data
def peeledTok : Str := " peeled ".data

/-- `packed_parse_oid`: an entry line is 40 hex characters, one space, then
the name up to the next LF (one CR just before the LF is stripped from the
name but, as in the source, the pointer is only advanced past the CR, not
the LF; a missing final LF is tolerated). Returns the fresh entry (flags
clear, peel zeroed by `calloc`) and the rest of the buffer, or `none` for
"corrupt". -/
def packedParseOid (buf : Str) : Option (Packref × Str) :=
  if buf.length ≤ 41 then none
  else if buf.get? 40 ≠ some ' ' then none
  else match oidFromChars buf with
  | none => none
  | some oid =>
    let after := buf.drop 41
    let name0 := after.takeWhile (fun c => c ≠ '\n')
    let name := if name0.getLast? = some '\r' then name0.dropLast else name0
    let rest :=
      if name0.length < after.length then
        if name0.getLast? = some '\r' then after.drop name0.length
        else after.drop (name0.length + 1)
      else []
    some ({ oid := oid, peel := zeroOid, hasPeel := false, wasLoose := false,
            cannotPeel := false, shadowed := false, name := name }, rest)

/-- `packed_parse_peel`: a caret, 40 hex characters, then an optional CR and
an LF (the LF may be absent at end of file). Sets HAS_PEEL on the entry. -/
def packedParsePeel (ref : Packref) (buf : Str) : Option (Packref × Str) :=
  let b := buf.drop 1
  if b.length < 40 then none
  else match oidFromChars b with
  | none => none
  | some peel =>
    let b2 := b.drop 40
    let b3 := if b2.head? = some '\r' then b2.drop 1 else b2
    match b3 with
    | [] => some ({ ref with peel := peel, hasPeel := true }, [])
    | '\n' :: tl => some ({ ref with peel := peel, hasPeel := true }, tl)
    | _ => none

/-- The comment-skipping loop of `packed_load`: drop leading `#` lines; a
`#` line without a terminating LF is corrupt. Fuel-driven; the callers pass
`length + 1`, which always suffices since each round consumes at least one
character. -/
def commentSkipF : Nat → Str → Option Str
  | 0, _ => none
  | _ + 1, [] => some []
  | fuel + 1, c :: rest =>
    if c = '#' then
      match (c :: rest).dropWhile (fun x => x ≠ '\n') with
      | [] => none
      | _ :: tl => commentSkipF fuel tl
    else some (c :: rest)

/-- The flag inference in the entry loop of `packed_load`: in FULL mode
every entry without a peel line gets CANNOT_PEEL; in STANDARD mode only
entries under `refs/tags/`. -/
def applyCannotPeel (mode : PeelMode) (ref : Packref) : Packref :=
  if mode = .peelFull ∨ (mode = .peelStandard ∧ tagsDirChars.isPrefixOf ref.name) then
    { ref with cannotPeel := true }
  else ref

/-- The entry loop of `packed_load`, fuel-driven (each round consumes at
least one character, so `length + 1` fuel always suffices). -/
def parseEntriesF : Nat → PeelMode → Str → RefMap → Option RefMap
  | 0, _, _, _ => none
  | _ + 1, _, [], m => some m
  | fuel + 1, mode, c :: rest, m =>
    match packedParseOid (c :: rest) with
    | none => none
    | some (ref, rest2) =>
      if rest2.head? = some '^' then
        match packedParsePeel ref rest2 with
        | none => none
        | some (ref3, rest3) => parseEntriesF fuel mode rest3 (mapInsert m ref3)
      else parseEntriesF fuel mode rest2 (mapInsert m (applyCannotPeel mode ref))

/-- The trait scan of `packed_load`: `strstr` for the space-surrounded
tokens inside the traits segment. -/
def modeOfTraits (traits : Str) : PeelMode :=
  if strstrB fullyPeeledTok traits then .peelFull
  else if strstrB peeledTok traits then .peelStandard
  else .peelNone

/-- Comments then entries. -/
def parseBody (mode : PeelMode) (body : Str) : Option RefMap :=
  match commentSkipF (body.length + 1) body with
  | none => none
  | some b => parseEntriesF (b.length + 1) mode b []

/-- The parsing phase of `packed_load`: returns the final peeling mode (the
backend field is assigned before and during parsing, so it is meaningful
even when parsing later fails) and the parsed map, or `none` for
`parse_failed`. A buffer whose first line matches the `# pack-refs with: `
header but has no newline is corrupt. -/
def parsePacked (content : Str) : PeelMode × Option RefMap :=
  if hdrChars.isPrefixOf content then
    let afterH := content.drop hdrChars.length
    let traits := afterH.takeWhile (fun c => c ≠ '\n')
    if traits.length = afterH.length then (.peelNone, none)
    else
      let mode := modeOfTraits traits
      (mode, parseBody mode (afterH.drop (traits.length + 1)))
  else (.peelNone, parseBody .peelNone content)

/-- Modelled from the spec: the read-with-mtime helper
(`git_futils_readbuffer_updated`, out of scope) reports not-found when the
file is absent, "unchanged since last read" when the stored mtime is at
least the file's, and otherwise the content together with the file's mtime,
which the caller stores before parsing. -/
inductive ReadRes
  | rrNotFound
  | rrUnchanged
  | rrUpdated (content : Str) (mtime : Int)
deriving DecidableEq

def readbufferUpdated (file : Option (Str × Int)) (stored : Int) : ReadRes :=
  match file with
  | none => .rrNotFound
  | some (c, m) => if stored ≥ m then .rrUnchanged else .rrUpdated c m

/-- `packed_load`: allocate the strmap if it is NULL; read packed-refs with
the stored mtime; clear the map when the file is absent; keep the map when
the file is unchanged; otherwise reparse into a cleared map, recording the
new mtime, and on parse failure free the map (leaving it NULL) and fail. -/
def packedLoad (s : State) : State × Option Err :=
  let s0 := if s.cache = none then { s with cache := some [] } else s
  match readbufferUpdated s0.packedFile s0.cacheTime with
  | .rrNotFound => ({ s0 with cache := some [] }, none)
  | .rrUnchanged => (s0, none)
  | .rrUpdated content m =>
    match parsePacked content with
    | (mode, none) =>
      ({ s0 with cacheTime := m, peelingMode := mode, cache := none }, some .corruptPacked)
    | (mode, some mp) =>
      ({ s0 with cacheTime := m, peelingMode := mode, cache := some mp }, none)

/-- `isspace` on ASCII. -/
def isWs (c : Char) : Bool :=
  c.toNat = 32 || c.toNat = 9 || c.toNat = 10 || c.toNat = 11 || c.toNat = 12 || c.toNat = 13

/-- Modelled from the spec: `git_buf_rtrim` (out of scope) removes trailing
whitespace. -/
def rtrim (s : Str) : Str := (s.reverse.dropWhile isWs).reverse

def looseGet (l : List (Str × Str)) (n : Str) : Option Str :=
  (l.find? (fun p => p.1 == n)).map (fun p => p.2)

def looseHas (l : List (Str × Str)) (n : Str) : Bool := (looseGet l n).isSome

def looseSet (l : List (Str × Str)) (n : Str) (c : Str) : List (Str × Str) :=
  if looseHas l n then l.map (fun p => if p.1 == n then (n, c) else p)
  else l ++ [(n, c)]

def looseRemove (l : List (Str × Str)) (n : Str) : List (Str × Str) :=
  l.filter (fun p => !(p.1 == n))

/-- `loose_parse_oid`: at least 40 characters, the first 40 valid hex, and
the 41st (when present) whitespace. -/
def looseParseOid (content : Str) : Option Oid :=
  if content.length < 40 then none
  else match oidFromChars content with
  | none => none
  | some oid =>
    match content.get? 40 with
    | none => some oid
    | some c => if isWs c then some oid else none

/-- `git_reference`: a direct reference (oid, with a peel slot that stays
zero unless filled) or a symbolic one. -/
inductive Reference
  | direct (name : Str) (oid : Oid) (peel : Oid)
  | symbolic (name : Str) (target : Str)
deriving DecidableEq

def refName : Reference → Str
  | .direct n _ _ => n
  | .symbolic n _ => n

/-- `loose_lookup`: read the loose file; a `ref: ` prefix yields a symbolic
reference (content right-trimmed, target nonempty), anything else must
parse as an oid, yielding a direct reference with a zero peel
(`git_reference__alloc` with a NULL peel). -/
def looseLookup (s : State) (n : Str) : Except Err Reference :=
  match looseGet s.loose n with
  | none => .error .notFound
  | some content =>
    if symrefChars.isPrefixOf content then
      let trimmed := rtrim content
      if trimmed.length < symrefChars.length + 1 then .error .corruptLoose
      else .ok (.symbolic n (trimmed.drop symrefChars.length))
    else
      match looseParseOid content with
      | none => .error .corruptLoose
      | some oid => .ok (.direct n oid zeroOid)

/-- `git_buf_joinpath` with a single separating slash. -/
def joinpath (a b : Str) : Str := a ++ '/' :: b

/-- `refdb_fs_backend__exists`: refresh the cache, then report whether the
loose file exists or the packed strmap has a key equal to the JOINED path —
the source passes `ref_path.ptr`, not `ref_name`, to `git_strmap_exists`. -/
def refdbExists (s : State) (n : Str) : State × Except Err Bool :=
  match packedLoad s with
  | (s1, some e) => (s1, .error e)
  | (s1, none) =>
    (s1, .ok (looseHas s1.loose n || mapHas (cacheList s1) (joinpath s1.root n)))

/-- `packed_lookup` (via `packed_map_entry`): refresh, look the name up in
the packed map, and build a direct reference that always carries the
entry's peel field (zero when no peel was ever recorded). -/
def packedLookup (s : State) (n : Str) : State × Except Err Reference :=
  match packedLoad s with
  | (s1, some e) => (s1, .error e)
  | (s1, none) =>
    match mapFind (cacheList s1) n with
    | none => (s1, .error .notFound)
    | some entry => (s1, .ok (.direct n entry.oid entry.peel))

/-- `refdb_fs_backend__lookup`: loose first; on ENOTFOUND fall back to the
packed map; any other loose error short-circuits. -/
def refdbLookup (s : State) (n : Str) : State × Except Err Reference :=
  match looseLookup s n with
  | .ok r => (s, .ok r)
  | .error .notFound => packedLookup s n
  | .error e => (s, .error e)

/-- `ref_is_available`: with the old name exempt, the candidate is
unavailable when it agrees with an existing name on their common length and
the longer of the two continues with a slash (when the lengths are equal
the C code reads the NUL terminator, which is never a slash). -/
def refIsAvailable (old : Option Str) (newN thisN : Str) : Bool :=
  if old = some thisN then true
  else
    let cmplen := min thisN.length newN.length
    let lead := if thisN.length < newN.length then newN else thisN
    !(newN.take cmplen == thisN.take cmplen && lead.get? cmplen == some '/')

/-- `reference_path_available`: refresh; unless forced, fail with EEXISTS
when the new name already exists; then scan every PACKED entry for a path
collision. -/
def referencePathAvailable (s : State) (newN : Str) (old : Option Str) (force : Bool) :
    State × Except Err Unit :=
  match packedLoad s with
  | (s1, some e) => (s1, .error e)
  | (s1, none) =>
    if force then
      match (cacheList s1).find? (fun e => !refIsAvailable old newN e.name) with
      | some _ => (s1, .error .pathCollision)
      | none => (s1, .ok ())
    else
      match refdbExists s1 newN with
      | (s2, .error e) => (s2, .error e)
      | (s2, .ok true) => (s2, .error .alreadyExists)
      | (s2, .ok false) =>
        match (cacheList s2).find? (fun e => !refIsAvailable old newN e.name) with
        | some _ => (s2, .error .pathCollision)
        | none => (s2, .ok ())

/-- The file content `loose_write` emits: `<hex-oid>\n` or
`ref: <target>\n`. -/
def serializeLoose : Reference → Str
  | .direct _ oid _ => oidFmt oid ++ ['\n']
  | .symbolic _ target => symrefChars ++ target ++ ['\n']

/-- `loose_write`: serialize and commit the loose file (the empty-directory
removal and the filebuf temp-file mechanics have no observable effect
here). -/
def looseWrite (s : State) (r : Reference) : State × Except Err Unit :=
  ({ s with loose := looseSet s.loose (refName r) (serializeLoose r) }, .ok ())

/-- `refdb_fs_backend__write`: availability check (old name NULL), then the
loose write. -/
def refdbWrite (s : State) (r : Reference) (force : Bool) : State × Except Err Unit :=
  match referencePathAvailable s (refName r) none force with
  | (s1, .error e) => (s1, .error e)
  | (s1, .ok _) => looseWrite s1 r

/-- `strcmp` as a boolean "less or equal", comparing byte values. -/
def strLe : Str → Str → Bool
  | [], _ => true
  | _ :: _, [] => false
  | a :: as, b :: bs =>
    if a.toNat < b.toNat then true
    else if b.toNat < a.toNat then false
    else strLe as bs

/-- `packed_sort`: entries are ordered by `strcmp` on their names. -/
def nameLe (a b : Packref) : Prop := strLe a.name b.name = true

instance : DecidableRel nameLe := fun a b => instDecidableEqBool (strLe a.name b.name) true

/-- The object-database collaborator: look an oid up, learning whether the
object is a tag and, for tags, the tag's target oid. -/
abbrev Odb := Oid → Option (Bool × Oid)

/-- `packed_find_peel`: nothing to do when HAS_PEEL or CANNOT_PEEL is set;
otherwise look the object up (lookup failure is fatal) and record the tag
target as the peel for tag objects; other object types are untouched. -/
def packedFindPeel (odb : Odb) (ref : Packref) : Except Err Packref :=
  if ref.hasPeel || ref.cannotPeel then .ok ref
  else
    match odb ref.oid with
    | none => .error .odbFail
    | some (isTag, target) =>
      if isTag then .ok { ref with peel := target, hasPeel := true } else .ok ref

/-- `packed_write_ref`: `<hex-oid> <name>\n`, plus `^<hex-peel>\n` exactly
when HAS_PEEL is set. -/
def serializeEntry (e : Packref) : Str :=
  oidFmt e.oid ++ ' ' ::
    (e.name ++ '\n' :: (if e.hasPeel then '^' :: (oidFmt e.peel ++ ['\n']) else []))

/-- The output loop of `packed_write`: peel each entry in order, then emit
it. -/
def writeEntriesGo (odb : Odb) : List Packref → Except Err (List Packref × Str)
  | [] => .ok ([], [])
  | e :: rest =>
    match packedFindPeel odb e with
    | .error err => .error err
    | .ok e2 =>
      match writeEntriesGo odb rest with
      | .error err => .error err
      | .ok (es, b) => .ok (e2 :: es, serializeEntry e2 ++ b)

/-- Modelled from the spec: the GIT_PACKEDREFS_HEADER constant (refs.h, out
of scope), the optional `# pack-refs with: peeled` header line emitted
before the entries. -/
def packedHdrChars : Str := "# pack-refs with: peeled".data

/-- `packed_write`: collect the cache into a vector, sort it by name, write
the header and the peeled entries, commit (the committed file gets a fresh,
strictly newer mtime, which the final `stat` stores back into the cache),
then unlink every loose file whose entry was folded in (WAS_LOOSE). The
in-place peel-flag updates of the map's entries are modelled by storing the
peeled vector back as the cache (strmap order is not observable here). The
NULL-map case is an `assert` in the source and unreachable from the modelled
flows. -/
def packedWrite (odb : Odb) (s : State) : State × Except Err Unit :=
  match s.cache with
  | none => (s, .error .ioErr)
  | some m =>
    match writeEntriesGo odb (List.insertionSort nameLe m) with
    | .error e => (s, .error e)
    | .ok (es, body) =>
      let t := s.cacheTime + 1
      ({ s with
          packedFile := some (packedHdrChars ++ '\n' :: body, t),
          cacheTime := t,
          cache := some es,
          loose := s.loose.filter (fun p => !(es.any (fun e => e.wasLoose && e.name == p.1))) },
        .ok ())

/-- `refdb_fs_backend__delete`: unlink the loose file if present; then
refresh and, when the name is packed, remove it from the map and rewrite
the packed file; NotFound only when neither representation had the name. -/
def refdbDelete (odb : Odb) (s : State) (n : Str) : State × Except Err Unit :=
  let looseDeleted := looseHas s.loose n
  let s1 := { s with loose := looseRemove s.loose n }
  match packedLoad s1 with
  | (s2, some e) => (s2, .error e)
  | (s2, none) =>
    match mapFind (cacheList s2) n with
    | none => (s2, if looseDeleted then .ok () else .error .notFound)
    | some _ => packedWrite odb { s2 with cache := some (mapRemove (cacheList s2) n) }

/-- `loose_lookup_to_packfile`: read the loose file, right-trim, parse as an
oid (symbolic content is corrupt here), and build an entry flagged
WAS_LOOSE. -/
def looseToPackref (n : Str) (content : Str) : Option Packref :=
  (looseParseOid (rtrim content)).map (fun oid =>
    { oid := oid, peel := zeroOid, hasPeel := false, wasLoose := true,
      cannotPeel := false, shadowed := false, name := n })

/-- The directory walk of `packed_loadloose`: fold every loose file under
`refs/` into the map (overriding packed entries of the same name), stopping
at the first file that fails to parse. -/
def loadLooseGo (m : RefMap) : List (Str × Str) → RefMap × Option Err
  | [] => (m, none)
  | (n, c) :: rest =>
    match looseToPackref n c with
    | none => (m, some .corruptLoose)
    | some e => loadLooseGo (mapInsert m e) rest

/-- The loose files the walk of `<root>/refs` visits. -/
def refsFiles (s : State) : List (Str × Str) :=
  s.loose.filter (fun p => refsDirChars.isPrefixOf p.1)

/-- `packed_loadloose` (the cache must already be loaded; NULL is an
`assert` in the source). -/
def packedLoadloose (s : State) : State × Option Err :=
  match s.cache with
  | none => (s, some .ioErr)
  | some m =>
    let r := loadLooseGo m (refsFiles s)
    ({ s with cache := some r.1 }, r.2)

/-- `refdb_fs_backend__compress`: load the packed file, fold in the loose
refs, write the packed file back. -/
def refdbCompress (odb : Odb) (s : State) : State × Except Err Unit :=
  match packedLoad s with
  | (s1, some e) => (s1, .error e)
  | (s1, none) =>
    match packedLoadloose s1 with
    | (s2, some e) => (s2, .error e)
    | (s2, none) => packedWrite odb s2

/-- The shadow-marking pass of `iter_load_loose_paths`: every packed entry
whose name was collected from the loose walk gets PACKREF_SHADOWED. -/
def markShadowed (m : RefMap) (names : List Str) : RefMap :=
  m.map (fun e => if names.any (fun n => n == e.name) then { e with shadowed := true } else e)

/-- The spec's "strict path-prefix" relation, stated verbatim for
comparison with `ref_is_available`: `a` is a strict path-prefix of `b` when
the two are identical up to the length of `a` and `b` continues with a
slash there. -/
def strictPathPrefixRel (a b : Str) : Bool :=
  decide (a.length < b.length) && b.take a.length == a && b.get? a.length == some '/'

/-- ASCII printable characters (strictly between space and DEL). -/
def printableChar (c : Char) : Bool := decide (32 < c.toNat) && decide (c.toNat < 127)

/-- A valid reference name per the spec's data model: nonempty, printable,
slash-delimited components that are nonempty and none of which is `.` or
`..`, and no `.lock` suffix. -/
def validRefName (n : Str) : Bool :=
  !n.isEmpty && n.all printableChar &&
    (n.splitOn '/').all (fun comp => !comp.isEmpty && !(comp == ['.']) && !(comp == ['.', '.'])) &&
    !(".lock".data.isSuffixOf n)

/-- A valid reference value: valid name, and a well-formed oid target or a
valid target name. -/
def validReference : Reference → Bool
  | .direct n o _ => validRefName n && validOidB o
  | .symbolic n t => validRefName n && validRefName t

/-- The cache invariant on one entry: HAS_PEEL and CANNOT_PEEL are never
both set. -/
def flagsOk (e : Packref) : Prop := (e.hasPeel && e.cannotPeel) = false

instance (e : Packref) : Decidable (flagsOk e) :=
  instDecidableEqBool (e.hasPeel && e.cannotPeel) false

/-- Equality of reference values in the sense of the spec's round-trip
property: same variant, same name, same target (the peel slot is not part
of the comparison). -/
def sameRefValue : Reference → Reference → Bool
  | .direct n o _, .direct n2 o2 _ => n == n2 && o == o2
  | .symbolic n t, .symbolic n2 t2 => n == n2 && t == t2
  | _, _ => false

/-! ### Structural facts about `packed_load` -/

theorem packedLoad_error {s : State} {e : Err} (h : (packedLoad s).2 = some e) :
    e = Err.corruptPacked := by
  obtain ⟨r, l, pf, c, t, pm⟩ := s
  rcases pf with _ | ⟨pc, pmt⟩
  · rcases c with _ | cm <;> simp [packedLoad, readbufferUpdated] at h
  · rcases c with _ | cm <;> by_cases ht : t ≥ pmt <;>
      rcases hp : parsePacked pc with ⟨md, _ | mp⟩ <;>
      simp [packedLoad, readbufferUpdated, ht, hp] at h <;>
      exact h.symm

theorem packedLoad_root (s : State) : (packedLoad s).1.root = s.root := by
  obtain ⟨r, l, pf, c, t, pm⟩ := s
  rcases pf with _ | ⟨pc, pmt⟩
  · rcases c with _ | cm <;> simp [packedLoad, readbufferUpdated]
  · rcases c with _ | cm <;> by_cases ht : t ≥ pmt <;>
      rcases hp : parsePacked pc with ⟨md, _ | mp⟩ <;>
      simp [packedLoad, readbufferUpdated, ht, hp]

theorem packedLoad_loose (s : State) : (packedLoad s).1.loose = s.loose := by
  obtain ⟨r, l, pf, c, t, pm⟩ := s
  rcases pf with _ | ⟨pc, pmt⟩
  · rcases c with _ | cm <;> simp [packedLoad, readbufferUpdated]
  · rcases c with _ | cm <;> by_cases ht : t ≥ pmt <;>
      rcases hp : parsePacked pc with ⟨md, _ | mp⟩ <;>
      simp [packedLoad, readbufferUpdated, ht, hp]

theorem packedLoad_packedFile (s : State) : (packedLoad s).1.packedFile = s.packedFile := by
  obtain ⟨r, l, pf, c, t, pm⟩ := s
  rcases pf with _ | ⟨pc, pmt⟩
  · rcases c with _ | cm <;> simp [packedLoad, readbufferUpdated]
  · rcases c with _ | cm <;> by_cases ht : t ≥ pmt <;>
      rcases hp : parsePacked pc with ⟨md, _ | mp⟩ <;>
      simp [packedLoad, readbufferUpdated, ht, hp]

theorem packedLoad_cache_some {s : State} (h : (packedLoad s).2 = none) :
    ∃ m, (packedLoad s).1.cache = some m := by
  obtain ⟨r, l, pf, c, t, pm⟩ := s
  rcases pf with _ | ⟨pc, pmt⟩
  · rcases c with _ | cm <;> simp [packedLoad, readbufferUpdated]
  · rcases c with _ | cm <;> by_cases ht : t ≥ pmt <;>
      rcases hp : parsePacked pc with ⟨md, _ | mp⟩ <;>
      simp [packedLoad, readbufferUpdated, ht, hp] at h ⊢

theorem packedLoad_idem {s : State} (h : (packedLoad s).2 = none) :
    packedLoad (packedLoad s).1 = ((packedLoad s).1, none) := by
  obtain ⟨r, l, pf, c, t, pm⟩ := s
  rcases pf with _ | ⟨pc, pmt⟩
  · rcases c with _ | cm <;> simp [packedLoad, readbufferUpdated]
  · rcases c with _ | cm <;> by_cases ht : t ≥ pmt <;>
      rcases hp : parsePacked pc with ⟨md, _ | mp⟩ <;>
      simp [packedLoad, readbufferUpdated, ht, hp] at h ⊢

theorem packedLoad_corrupt_shape {s : State}
    (h : (packedLoad s).2 = some Err.corruptPacked) :
    (packedLoad s).1.cache = none ∧
    (packedLoad s).1.packedFile = s.packedFile ∧
    packedLoad (packedLoad s).1 = ({ (packedLoad s).1 with cache := some [] }, none) := by
  obtain ⟨r, l, pf, c, t, pm⟩ := s
  rcases pf with _ | ⟨pc, pmt⟩
  · rcases c with _ | cm <;> simp [packedLoad, readbufferUpdated] at h
  · rcases c with _ | cm <;> by_cases ht : t ≥ pmt <;>
      rcases hp : parsePacked pc with ⟨md, _ | mp⟩ <;>
      simp [packedLoad, readbufferUpdated, ht, hp] at h ⊢

/-! ### Claim C1: exists -/

/-- A packed entry for `refs/heads/a`. -/
def c1Entry : Packref :=
  Packref.mk (List.replicate 20 1) zeroOid false false false false ("refs/heads/a".data)

/-- A state whose packed map contains `refs/heads/a` (cache up to date: the
stored mtime equals the packed file's) and with no loose files. -/
def c1State : State :=
  State.mk ("r".data) [] (some ("x".data, 5)) (some [c1Entry]) 5 PeelMode.peelNone

/-- Claim C1: "after refreshing the cache, exists(N) returns true iff the
loose file exists or the packed map contains N as a key". The code is wrong
(a slip contradicting the intent visible everywhere else the strmap is
keyed): `refdb_fs_backend__exists` passes the joined filesystem path
`ref_path.ptr`, not `ref_name`, to `git_strmap_exists`, so a reference that
is only packed is reported as absent. This theorem evaluates the embedded
code at the failing input: the packed map contains `refs/heads/a`, no loose
file exists, and yet `exists` returns false. -/
theorem claim1_theorem :
    mapHas (cacheList c1State) ("refs/heads/a".data) = true ∧
    looseHas c1State.loose ("refs/heads/a".data) = false ∧
    (refdbExists c1State ("refs/heads/a".data)).2 = Except.ok false := by
  decide

/-! ### Claim C2: lookup dispatch -/

/-- Claim C2: lookup attempts the loose read first and returns its result on
success; a loose ENOTFOUND falls through to the packed map, where a hit
yields a direct reference carrying the cached peel field (in particular the
cached peel when HAS_PEEL is set) and a miss yields NotFound; any other
loose error short-circuits without consulting the packed map; hence a loose
file shadows a packed entry of the same name. -/
theorem claim2_theorem : ∀ (s : State) (n : Str),
    (∀ r, looseLookup s n = .ok r → refdbLookup s n = (s, .ok r)) ∧
    (looseLookup s n = .error .notFound → refdbLookup s n = packedLookup s n) ∧
    (∀ e, looseLookup s n = .error e → e ≠ .notFound → refdbLookup s n = (s, .error e)) ∧
    ((packedLoad s).2 = none →
      (∀ entry, mapFind (cacheList (packedLoad s).1) n = some entry →
        packedLookup s n = ((packedLoad s).1, .ok (.direct n entry.oid entry.peel))) ∧
      (mapFind (cacheList (packedLoad s).1) n = none →
        packedLookup s n = ((packedLoad s).1, .error .notFound))) := by
  intro s n
  refine ⟨?_, ?_, ?_, ?_⟩
  · intro r h
    simp [refdbLookup, h]
  · intro h
    simp [refdbLookup, h]
  · intro e h hne
    cases e <;> simp [refdbLookup, h]
    exact absurd rfl hne
  · intro hload
    have hps : packedLoad s = ((packedLoad s).1, none) := by rw [← hload]
    constructor
    · intro entry hentry
      unfold packedLookup
      rw [hps]
      simp [hentry]
    · intro hnone
      unfold packedLookup
      rw [hps]
      simp [hnone]

/-- A state with an empty packed map and no loose files. -/
def c2State : State := State.mk ("r".data) [] none (some []) 0 PeelMode.peelNone

/-- Witness for C2: on a concrete state with no loose file, lookup falls
through to the packed map and reports NotFound. -/
theorem claim2_witness :
    refdbLookup c2State ("refs/heads/a".data) = packedLookup c2State ("refs/heads/a".data) ∧
    packedLookup c2State ("refs/heads/a".data) = ((packedLoad c2State).1, .error .notFound) :=
  ⟨(claim2_theorem c2State ("refs/heads/a".data)).2.1 (by decide),
    ((claim2_theorem c2State ("refs/heads/a".data)).2.2.2 (by decide)).2 (by decide)⟩

/-! ### Claim C3: packed parse failure -/

/-- A state whose packed-refs file is structurally corrupt (`bogus\n`) and
newer than the cache's stored mtime. -/
def c3State : State :=
  State.mk ("r".data) [] (some ("bogus\n".data, 5)) (some []) 0 PeelMode.peelNone

/-- Claim C3 counterexample: after a refresh fails on the corrupt packed
file, the claim says "every subsequent read operation fails again until the
packed file is fixed on disk" — but the failed refresh has already recorded
the file's mtime, so the very next read (here: `exists`) sees the file as
unchanged and SUCCEEDS against an empty cache. -/
theorem claim3_counterexample :
    (packedLoad c3State).2 = some Err.corruptPacked ∧
    (packedLoad c3State).1.cache = none ∧
    (refdbExists (packedLoad c3State).1 ("refs/heads/a".data)).2 = Except.ok false := by
  decide

/-- Claim C3 (amended): if parsing the packed file fails structurally, the
refresh fails and the cache is left empty (freed, partial results
discarded); but because the failed refresh recorded the packed file's
mtime, the next refresh with the file unchanged on disk succeeds with an
empty cache instead of failing; reads fail again only after the file's
mtime changes and reparsing fails anew. -/
theorem claim3_theorem : ∀ s : State, (packedLoad s).2 = some Err.corruptPacked →
    (packedLoad s).1.cache = none ∧
    packedLoad ((packedLoad s).1) = ({ (packedLoad s).1 with cache := some [] }, none) :=
  fun _ h => ⟨(packedLoad_corrupt_shape h).1, (packedLoad_corrupt_shape h).2.2⟩

/-- Witness for C3 at the concrete corrupt state. -/
theorem claim3_witness :
    (packedLoad c3State).1.cache = none ∧
    packedLoad ((packedLoad c3State).1) =
      ({ (packedLoad c3State).1 with cache := some [] }, none) :=
  claim3_theorem c3State (by decide)

/-! ### Claim C4: peeling-mode derivation -/

theorem takeWhile_append_cons {p : Char → Bool} (l1 : Str) (a : Char) (l2 : Str)
    (h1 : ∀ c ∈ l1, p c = true) (h2 : p a = false) :
    (l1 ++ a :: l2).takeWhile p = l1 := by
  induction l1 with
  | nil => simp [List.takeWhile_cons, h2]
  | cons x xs ih =>
    simp only [List.cons_append, List.takeWhile_cons, h1 x (by simp), if_true]
    rw [ih (fun c hc => h1 c (by simp [hc]))]

/-- Claim C4 counterexample: the claim's concrete case is wrong on the code:
the header `# pack-refs with: fully-peeled` yields mode None, not Full,
because `strstr(traits, " fully-peeled ")` demands a literal space on BOTH
sides of the token and the traits segment is exactly `fully-peeled`. -/
theorem claim4_counterexample :
    (parsePacked ("# pack-refs with: fully-peeled\n".data)).1 = PeelMode.peelNone ∧
    PeelMode.peelNone ≠ PeelMode.peelFull := by
  decide

/-- Claim C4 (amended): for a packed file starting with the header
`# pack-refs with: <traits>\n`, the peeling mode is Full when the traits
segment contains the substring ` fully-peeled ` (a space on each side),
otherwise Standard when it contains ` peeled `, otherwise None. In
particular `# pack-refs with: fully-peeled` yields None, while git's own
`# pack-refs with: peeled fully-peeled ` (trailing space) yields Full. -/
theorem claim4_theorem : ∀ (traits rest : Str), '\n' ∉ traits →
    (parsePacked (hdrChars ++ traits ++ '\n' :: rest)).1 =
      (if strstrB fullyPeeledTok traits then PeelMode.peelFull
       else if strstrB peeledTok traits then PeelMode.peelStandard
       else PeelMode.peelNone) := by
  intro traits rest hnl
  have hpre : hdrChars.isPrefixOf (hdrChars ++ traits ++ '\n' :: rest) = true := by
    rw [List.isPrefixOf_iff_prefix, List.append_assoc]
    exact List.prefix_append _ _
  have hdrop : (hdrChars ++ traits ++ '\n' :: rest).drop hdrChars.length =
      traits ++ '\n' :: rest := by
    rw [List.append_assoc]
    exact List.drop_left _ _
  have htake : (traits ++ '\n' :: rest).takeWhile (fun c => c ≠ '\n') = traits := by
    refine takeWhile_append_cons traits '\n' rest (fun c hc => ?_) (by simp)
    simp only [ne_eq, decide_eq_true_eq]
    exact fun hEq => hnl (hEq ▸ hc)
  have hlen : traits.length ≠ (traits ++ '\n' :: rest).length := by
    simp
  simp only [parsePacked, hpre, if_true, hdrop, htake, hlen, if_false, modeOfTraits]

/-- Witness for C4: git's fully-peeled header (with the surrounding spaces
present in the traits segment) does yield mode Full. -/
theorem claim4_witness :
    (parsePacked (hdrChars ++ ("peeled fully-peeled ".data) ++ '\n' :: [])).1 =
      PeelMode.peelFull :=
  (claim4_theorem ("peeled fully-peeled ".data) [] (by decide)).trans (by decide)

/-! ### Claim C5: path-availability check -/

theorem refIsAvailable_false_iff (old : Option Str) (newN thisN : Str) :
    refIsAvailable old newN thisN = false ↔
      (old ≠ some thisN ∧
        (strictPathPrefixRel newN thisN = true ∨ strictPathPrefixRel thisN newN = true)) := by
  by_cases ho : old = some thisN
  · simp [refIsAvailable, ho]
  · rcases Nat.lt_trichotomy thisN.length newN.length with hlt | heq | hgt
    · have hmin : min thisN.length newN.length = thisN.length := Nat.min_eq_left (le_of_lt hlt)
      have htk : thisN.take thisN.length = thisN := List.take_length thisN
      simp only [refIsAvailable, ho, if_false, hmin, if_pos hlt, Bool.not_eq_false',
        Bool.and_eq_true, beq_iff_eq, htk]
      constructor
      · rintro ⟨h1, h2⟩
        refine ⟨ho, Or.inr ?_⟩
        simp only [strictPathPrefixRel, Bool.and_eq_true, beq_iff_eq, decide_eq_true_eq]
        exact ⟨⟨hlt, h1⟩, h2⟩
      · rintro ⟨-, h | h⟩
        · simp only [strictPathPrefixRel, Bool.and_eq_true, beq_iff_eq, decide_eq_true_eq] at h
          omega
        · simp only [strictPathPrefixRel, Bool.and_eq_true, beq_iff_eq, decide_eq_true_eq] at h
          exact ⟨h.1.2, h.2⟩
    · have hmin : min thisN.length newN.length = thisN.length := by omega
      have hnone : thisN.get? thisN.length = none := by
        rw [List.get?_eq_getElem?]
        simp
      simp only [refIsAvailable, ho, if_false, hmin,
        if_neg (by omega : ¬ thisN.length < newN.length),
        Bool.not_eq_false', Bool.and_eq_true, beq_iff_eq, hnone]
      constructor
      · rintro ⟨-, h2⟩
        cases h2
      · rintro ⟨-, h | h⟩ <;>
        · simp only [strictPathPrefixRel, Bool.and_eq_true, beq_iff_eq, decide_eq_true_eq] at h
          omega
    · have hmin : min thisN.length newN.length = newN.length := Nat.min_eq_right (le_of_lt hgt)
      have htk : newN.take newN.length = newN := List.take_length newN
      simp only [refIsAvailable, ho, if_false, hmin,
        if_neg (by omega : ¬ thisN.length < newN.length),
        Bool.not_eq_false', Bool.and_eq_true, beq_iff_eq, htk]
      constructor
      · rintro ⟨h1, h2⟩
        refine ⟨ho, Or.inl ?_⟩
        simp only [strictPathPrefixRel, Bool.and_eq_true, beq_iff_eq, decide_eq_true_eq]
        exact ⟨⟨hgt, h1.symm⟩, h2⟩
      · rintro ⟨-, h | h⟩
        · simp only [strictPathPrefixRel, Bool.and_eq_true, beq_iff_eq, decide_eq_true_eq] at h
          exact ⟨h.1.2.symm, h.2⟩
        · simp only [strictPathPrefixRel, Bool.and_eq_true, beq_iff_eq, decide_eq_true_eq] at h
          omega

theorem find_collision {m : RefMap} {old : Option Str} {newN : Str} (e : Packref)
    (he : e ∈ m) (hu : refIsAvailable old newN e.name = false) :
    ∃ x, m.find? (fun e => !refIsAvailable old newN e.name) = some x := by
  have : (m.find? (fun e => !refIsAvailable old newN e.name)).isSome = true :=
    List.find?_isSome.2 ⟨e, he, by simp [hu]⟩
  exact Option.isSome_iff_exists.1 this

theorem refdbExists_ok {s1 : State} (h : packedLoad s1 = (s1, none)) (n : Str) :
    refdbExists s1 n =
      (s1, .ok (looseHas s1.loose n || mapHas (cacheList s1) (joinpath s1.root n))) := by
  unfold refdbExists
  rw [h]

/-- The loose file used in the C5 counterexample. -/
def c5LooseContent : Str := "aaaaaaaaaaaaaaaaaaaaaaaaaaaaaaaaaaaaaaaa\n".data

/-- A state where `refs/heads/feature` exists only as a loose file. -/
def c5State : State :=
  State.mk ("r".data) [("refs/heads/feature".data, c5LooseContent)] none (some []) 0
    PeelMode.peelNone

/-- Claim C5 counterexample: the claim says the availability check fails
with PathCollision for "any existing reference name (packed, and
additionally loose on disk)" that is strict-prefix-related to the new name.
But the collision loop of `reference_path_available` iterates over PACKED
entries only: with `refs/heads/feature` existing only loose, both
`write refs/heads/feature/x` and `write refs/heads` pass the availability
check (the spec's example states they yield PathCollision). -/
theorem claim5_counterexample :
    looseHas c5State.loose ("refs/heads/feature".data) = true ∧
    strictPathPrefixRel ("refs/heads/feature".data) ("refs/heads/feature/x".data) = true ∧
    strictPathPrefixRel ("refs/heads".data) ("refs/heads/feature".data) = true ∧
    (referencePathAvailable c5State ("refs/heads/feature/x".data) none false).2 = .ok () ∧
    (referencePathAvailable c5State ("refs/heads".data) none false).2 = .ok () := by
  decide

/-- Claim C5 (amended): `ref_is_available` reports a collision exactly when
the existing name is distinct from the supplied old name and one of the two
names is a strict path-prefix of the other (first conjunct, a refinement of
the spec's wording against the code); and the availability check fails with
PathCollision whenever some PACKED entry collides in this sense — loose-only
names on disk are not scanned and trigger no PathCollision (second
conjunct; the non-force path additionally requires the new name itself not
to be reported as existing, else AlreadyExists wins). -/
theorem claim5_theorem :
    (∀ (old : Option Str) (newN thisN : Str),
      refIsAvailable old newN thisN = false ↔
        (old ≠ some thisN ∧
          (strictPathPrefixRel newN thisN = true ∨ strictPathPrefixRel thisN newN = true))) ∧
    (∀ (s : State) (newN : Str) (old : Option Str) (force : Bool) (e : Packref),
      (packedLoad s).2 = none →
      e ∈ cacheList (packedLoad s).1 →
      refIsAvailable old newN e.name = false →
      (force = true ∨ (refdbExists (packedLoad s).1 newN).2 = .ok false) →
      (referencePathAvailable s newN old force).2 = .error .pathCollision) := by
  constructor
  · exact refIsAvailable_false_iff
  · intro s newN old force e hload he hu hforce
    have hps : packedLoad s = ((packedLoad s).1, none) := by rw [← hload]
    have hidem : packedLoad ((packedLoad s).1) = ((packedLoad s).1, none) := packedLoad_idem hload
    obtain ⟨x, hx⟩ := find_collision e he hu
    unfold referencePathAvailable
    rw [hps]
    rcases hforce with hforce | hE
    · subst hforce
      simp only [if_true]
      rw [hx]
    · have hexists := refdbExists_ok hidem newN
      rw [hexists] at hE
      simp only at hE
      cases force
      · simp only [Bool.false_eq_true, if_false]
        rw [hexists, hE]
        simp only
        rw [hx]
      · simp only [if_true]
        rw [hx]

/-- The packed entry used in the C5 witness. -/
def c5Entry : Packref :=
  Packref.mk (List.replicate 20 1) zeroOid false false false false ("refs/heads/feature".data)

/-- A state whose packed map contains `refs/heads/feature` (cache current). -/
def c5PackedState : State :=
  State.mk ("r".data) [] (some ("x".data, 5)) (some [c5Entry]) 5 PeelMode.peelNone

/-- Witness for C5: with `refs/heads/feature` packed, writing
`refs/heads/feature/x` does collide. -/
theorem claim5_witness :
    (referencePathAvailable c5PackedState ("refs/heads/feature/x".data) none true).2 =
      .error .pathCollision :=
  claim5_theorem.2 c5PackedState ("refs/heads/feature/x".data) none true c5Entry
    (by decide) (by decide) (by decide) (Or.inl rfl)

/-! ### Invariant preservation lemmas (flag exclusion) -/


theorem packedParseOid_shape {buf : Str} {r : Packref} {rest : Str}
    (h : packedParseOid buf = some (r, rest)) :
    r.hasPeel = false ∧ r.wasLoose = false ∧ r.cannotPeel = false ∧ r.shadowed = false := by
  unfold packedParseOid at h
  split at h
  · cases h
  · split at h
    · cases h
    · split at h
      · cases h
      · simp only [Option.some.injEq, Prod.mk.injEq] at h
        obtain ⟨hr, -⟩ := h
        subst hr
        exact ⟨rfl, rfl, rfl, rfl⟩

theorem packedParsePeel_shape {ref : Packref} {buf : Str} {r2 : Packref} {rest2 : Str}
    (h : packedParsePeel ref buf = some (r2, rest2)) :
    r2.hasPeel = true ∧ r2.cannotPeel = ref.cannotPeel ∧ r2.wasLoose = ref.wasLoose ∧
      r2.shadowed = ref.shadowed ∧ r2.name = ref.name ∧ r2.oid = ref.oid := by
  simp only [packedParsePeel] at h
  split at h
  · cases h
  · split at h
    · cases h
    · split at h
      · simp only [Option.some.injEq, Prod.mk.injEq] at h
        obtain ⟨hr, -⟩ := h
        subst hr
        exact ⟨rfl, rfl, rfl, rfl, rfl, rfl⟩
      · simp only [Option.some.injEq, Prod.mk.injEq] at h
        obtain ⟨hr, -⟩ := h
        subst hr
        exact ⟨rfl, rfl, rfl, rfl, rfl, rfl⟩
      · cases h

theorem applyCannotPeel_hasPeel (mode : PeelMode) (ref : Packref) :
    (applyCannotPeel mode ref).hasPeel = ref.hasPeel := by
  unfold applyCannotPeel
  split <;> rfl

theorem applyCannotPeel_flagsOk {mode : PeelMode} {ref : Packref}
    (h : ref.hasPeel = false) : flagsOk (applyCannotPeel mode ref) := by
  unfold flagsOk applyCannotPeel
  split <;> simp [h]

theorem mapInsert_allP {P : Packref → Prop} {m : RefMap} {e : Packref}
    (hm : ∀ x ∈ m, P x) (he : P e) : ∀ x ∈ mapInsert m e, P x := by
  intro x hx
  unfold mapInsert at hx
  split at hx
  · obtain ⟨y, hy, hxy⟩ := List.mem_map.1 hx
    by_cases hn : (y.name == e.name) = true
    · rw [if_pos hn] at hxy
      exact hxy ▸ he
    · rw [if_neg hn] at hxy
      exact hxy ▸ hm y hy
  · rcases List.mem_append.1 hx with hx1 | hx1
    · exact hm x hx1
    · rw [List.mem_singleton.1 hx1]
      exact he

theorem parseEntriesF_flagsOk : ∀ (fuel : Nat) (mode : PeelMode) (buf : Str) (m m' : RefMap),
    (∀ e ∈ m, flagsOk e) → parseEntriesF fuel mode buf m = some m' → ∀ e ∈ m', flagsOk e := by
  intro fuel
  induction fuel with
  | zero =>
    intro mode buf m m' hm h
    simp [parseEntriesF] at h
  | succ n ih =>
    intro mode buf m m' hm h
    cases buf with
    | nil =>
      simp only [parseEntriesF, Option.some.injEq] at h
      exact h ▸ hm
    | cons c rest =>
      rw [parseEntriesF] at h
      split at h
      · cases h
      · rename_i ref rest2 hpo
        obtain ⟨hhp, hwl, hcp, hsh⟩ := packedParseOid_shape hpo
        split at h
        · split at h
          · cases h
          · rename_i ref3 rest3 hpp
            obtain ⟨h1, h2, -, -, -, -⟩ := packedParsePeel_shape hpp
            refine ih mode rest3 _ m' (mapInsert_allP hm ?_) h
            unfold flagsOk
            rw [h1, h2, hcp]
            rfl
        · refine ih mode rest2 _ m' (mapInsert_allP hm ?_) h
          exact applyCannotPeel_flagsOk hhp

theorem parseBody_flagsOk {mode : PeelMode} {body : Str} {m' : RefMap}
    (h : parseBody mode body = some m') : ∀ e ∈ m', flagsOk e := by
  unfold parseBody at h
  rcases hcs : commentSkipF (body.length + 1) body with _ | b <;> rw [hcs] at h
  · cases h
  · exact parseEntriesF_flagsOk _ mode b [] m' (by simp) h

theorem parsePacked_flagsOk {content : Str} {md : PeelMode} {m' : RefMap}
    (h : parsePacked content = (md, some m')) : ∀ e ∈ m', flagsOk e := by
  simp only [parsePacked] at h
  split at h
  · split at h
    · simp at h
    · simp only [Prod.mk.injEq] at h
      exact parseBody_flagsOk h.2
  · simp only [Prod.mk.injEq] at h
    exact parseBody_flagsOk h.2

theorem packedLoad_flagsOk {s : State} (hs : ∀ e ∈ cacheList s, flagsOk e) :
    ∀ e ∈ cacheList (packedLoad s).1, flagsOk e := by
  have hs0 :
      ∀ e ∈ cacheList (if s.cache = none then { s with cache := some [] } else s), flagsOk e := by
    split
    · intro e he
      simp [cacheList] at he
    · exact hs
  intro e he
  simp only [packedLoad] at he
  split at he
  · simp [cacheList] at he
  · exact hs0 e he
  · split at he
    · simp [cacheList] at he
    · rename_i mode mp hp
      simp only [cacheList, Option.getD] at he
      exact parsePacked_flagsOk hp e he


theorem packedFindPeel_shape {odb : Odb} {e e' : Packref}
    (h : packedFindPeel odb e = .ok e') :
    e'.name = e.name ∧ e'.oid = e.oid ∧ e'.wasLoose = e.wasLoose ∧
      e'.cannotPeel = e.cannotPeel ∧ (e'.hasPeel = e.hasPeel ∨ (e'.hasPeel = true ∧ e.cannotPeel = false)) := by
  unfold packedFindPeel at h
  split at h
  · cases h
    exact ⟨rfl, rfl, rfl, rfl, Or.inl rfl⟩
  · rename_i hcond
    split at h
    · cases h
    · split at h <;> cases h
      · refine ⟨rfl, rfl, rfl, rfl, Or.inr ⟨rfl, ?_⟩⟩
        simp only [Bool.or_eq_true, not_or, Bool.not_eq_true] at hcond
        exact hcond.2
      · exact ⟨rfl, rfl, rfl, rfl, Or.inl rfl⟩

theorem packedFindPeel_flagsOk {odb : Odb} {e e' : Packref}
    (h1 : flagsOk e) (h2 : packedFindPeel odb e = .ok e') : flagsOk e' := by
  obtain ⟨hn, ho, hw, hc, hp⟩ := packedFindPeel_shape h2
  unfold flagsOk at h1 ⊢
  rcases hp with hp | ⟨hp, hcf⟩
  · rw [hp, hc]
    exact h1
  · rw [hp, hc, hcf]
    rfl

theorem packedFindPeel_error {odb : Odb} {e : Packref} {err : Err}
    (h : packedFindPeel odb e = .error err) : err = Err.odbFail := by
  unfold packedFindPeel at h
  split at h
  · cases h
  · split at h
    · cases h
      rfl
    · split at h <;> cases h

theorem writeEntriesGo_shape {odb : Odb} :
    ∀ {l : List Packref} {es : List Packref} {b : Str},
      writeEntriesGo odb l = .ok (es, b) →
      es.map (fun e => e.name) = l.map (fun e => e.name) ∧
      b = (es.map serializeEntry).flatten ∧
      (∀ e' ∈ es, ∃ e ∈ l, packedFindPeel odb e = .ok e') := by
  intro l
  induction l with
  | nil =>
    intro es b h
    simp only [writeEntriesGo] at h
    cases h
    exact ⟨rfl, rfl, by simp⟩
  | cons e rest ih =>
    intro es b h
    rw [writeEntriesGo] at h
    split at h
    · cases h
    · rename_i e2 hpe
      split at h
      · cases h
      · rename_i es2 b2 hgo
        cases h
        obtain ⟨hn, hb, hm⟩ := ih hgo
        refine ⟨?_, ?_, ?_⟩
        · simp only [List.map_cons, hn]
          obtain ⟨hnm, -⟩ := packedFindPeel_shape hpe
          rw [hnm]
        · simp [hb]
        · intro x hx
          rcases List.mem_cons.1 hx with hx1 | hx1
          · exact ⟨e, List.mem_cons_self e rest, hx1 ▸ hpe⟩
          · obtain ⟨y, hy, hyy⟩ := hm x hx1
            exact ⟨y, List.mem_cons_of_mem e hy, hyy⟩

theorem writeEntriesGo_error {odb : Odb} :
    ∀ {l : List Packref} {err : Err},
      writeEntriesGo odb l = .error err → err = Err.odbFail := by
  intro l
  induction l with
  | nil =>
    intro err h
    simp [writeEntriesGo] at h
  | cons e rest ih =>
    intro err h
    rw [writeEntriesGo] at h
    split at h
    · rename_i herr
      cases h
      exact packedFindPeel_error herr
    · split at h
      · rename_i herr
        cases h
        exact ih herr
      · cases h

theorem packedWrite_flagsOk {odb : Odb} {s : State}
    (hs : ∀ e ∈ cacheList s, flagsOk e) :
    ∀ e ∈ cacheList (packedWrite odb s).1, flagsOk e := by
  obtain ⟨r, l, pf, c, t, pm⟩ := s
  rcases c with _ | m
  · intro e he
    simp only [packedWrite] at he
    simp [cacheList] at he
  · have hsm : ∀ x ∈ m, flagsOk x := fun x hx => hs x (by simpa [cacheList] using hx)
    rcases hgo : writeEntriesGo odb (List.insertionSort nameLe m) with err | ⟨es, body⟩ <;>
      intro e he <;> simp only [packedWrite, hgo, cacheList, Option.getD] at he
    · exact hsm e he
    · obtain ⟨-, -, hmem⟩ := writeEntriesGo_shape hgo
      obtain ⟨y, hy, hyy⟩ := hmem e he
      exact packedFindPeel_flagsOk (hsm y ((List.mem_insertionSort nameLe).1 hy)) hyy

theorem filter_allP {P : Packref → Prop} {m : RefMap} {p : Packref → Bool}
    (hm : ∀ x ∈ m, P x) : ∀ x ∈ m.filter p, P x :=
  fun x hx => hm x (List.mem_of_mem_filter hx)

theorem looseToPackref_shape {n content : Str} {e : Packref}
    (h : looseToPackref n content = some e) :
    e.hasPeel = false ∧ e.cannotPeel = false ∧ e.wasLoose = true ∧ e.name = n := by
  unfold looseToPackref at h
  rcases ho : looseParseOid (rtrim content) with _ | oid <;> rw [ho] at h
  · cases h
  · cases h
    exact ⟨rfl, rfl, rfl, rfl⟩

theorem loadLooseGo_flagsOk :
    ∀ (files : List (Str × Str)) (m : RefMap),
      (∀ e ∈ m, flagsOk e) → ∀ e ∈ (loadLooseGo m files).1, flagsOk e := by
  intro files
  induction files with
  | nil => intro m hm; exact hm
  | cons p rest ih =>
    intro m hm e he
    obtain ⟨n, c⟩ := p
    rw [loadLooseGo] at he
    split at he
    · exact hm e he
    · rename_i e2 he2
      obtain ⟨h1, h2, -, -⟩ := looseToPackref_shape he2
      refine ih _ (mapInsert_allP hm ?_) e he
      unfold flagsOk
      rw [h1, h2]
      rfl

theorem packedLoadloose_flagsOk {s : State}
    (hs : ∀ e ∈ cacheList s, flagsOk e) :
    ∀ e ∈ cacheList (packedLoadloose s).1, flagsOk e := by
  intro e he
  simp only [packedLoadloose] at he
  split at he
  · exact hs e he
  · rename_i m hm
    simp only [cacheList, Option.getD] at he
    refine loadLooseGo_flagsOk (refsFiles s) m ?_ e he
    intro x hx
    exact hs x (by simp [cacheList, hm, hx])

theorem refdbDelete_flagsOk {odb : Odb} {s : State} {n : Str}
    (hs : ∀ e ∈ cacheList s, flagsOk e) :
    ∀ e ∈ cacheList (refdbDelete odb s n).1, flagsOk e := by
  have hload : ∀ x ∈ cacheList (packedLoad { s with loose := looseRemove s.loose n }).1,
      flagsOk x :=
    packedLoad_flagsOk (by simpa [cacheList] using hs)
  intro e he
  simp only [refdbDelete] at he
  rcases hP : packedLoad { s with loose := looseRemove s.loose n } with ⟨s2, e2⟩
  have hs2 : ∀ x ∈ cacheList s2, flagsOk x := by
    intro x hx
    exact hload x (by rw [hP]; exact hx)
  rw [hP] at he
  rcases e2 with _ | err
  · simp only [] at he
    rcases hmf : mapFind (cacheList s2) n with _ | entry <;> rw [hmf] at he
    · simp only [] at he
      exact hs2 e he
    · simp only [] at he
      refine packedWrite_flagsOk ?_ e he
      intro x hx
      simp only [cacheList, Option.getD, mapRemove] at hx
      exact hs2 x (List.mem_of_mem_filter hx)
  · simp only [] at he
    exact hs2 e he

theorem markShadowed_flagsOk {m : RefMap} {names : List Str}
    (hm : ∀ e ∈ m, flagsOk e) : ∀ e ∈ markShadowed m names, flagsOk e := by
  intro e he
  obtain ⟨y, hy, hyy⟩ := List.mem_map.1 he
  by_cases hn : (names.any (fun n => n == y.name)) = true
  · rw [if_pos hn] at hyy
    have := hm y hy
    unfold flagsOk at this ⊢
    rw [← hyy]
    exact this
  · rw [if_neg hn] at hyy
    exact hyy ▸ hm y hy

/-! ### Claim C9: HAS_PEEL / CANNOT_PEEL exclusion -/

/-- Claim C9: in the cache, HAS_PEEL and CANNOT_PEEL are never both set on
one packed entry, and the exclusion is preserved by every operation that
touches entries: the packed-file refresh (parsing included), the peel
computation at repack, the packed-file rewrite, the loose folding of the
compactor, deletion, and the iterator's shadow marking. -/
theorem claim9_theorem :
    (∀ s : State, (∀ e ∈ cacheList s, flagsOk e) →
      ∀ e ∈ cacheList (packedLoad s).1, flagsOk e) ∧
    (∀ (odb : Odb) (e e' : Packref), flagsOk e → packedFindPeel odb e = .ok e' → flagsOk e') ∧
    (∀ s : State, (∀ e ∈ cacheList s, flagsOk e) →
      ∀ e ∈ cacheList (packedLoadloose s).1, flagsOk e) ∧
    (∀ (odb : Odb) (s : State), (∀ e ∈ cacheList s, flagsOk e) →
      ∀ e ∈ cacheList (packedWrite odb s).1, flagsOk e) ∧
    (∀ (odb : Odb) (s : State) (n : Str), (∀ e ∈ cacheList s, flagsOk e) →
      ∀ e ∈ cacheList (refdbDelete odb s n).1, flagsOk e) ∧
    (∀ (m : RefMap) (names : List Str), (∀ e ∈ m, flagsOk e) →
      ∀ e ∈ markShadowed m names, flagsOk e) :=
  ⟨fun _ => packedLoad_flagsOk, fun _ _ _ => packedFindPeel_flagsOk,
    fun _ => packedLoadloose_flagsOk, fun _ _ => packedWrite_flagsOk,
    fun _ _ _ => refdbDelete_flagsOk, fun _ _ => markShadowed_flagsOk⟩

/-- A packed entry marked CANNOT_PEEL (HAS_PEEL clear). -/
def c9Entry : Packref :=
  Packref.mk (List.replicate 20 2) zeroOid false false true false ("refs/tags/t".data)

/-- Witness for C9: the peel computation keeps the exclusion on a concrete
CANNOT_PEEL entry. -/
theorem claim9_witness : flagsOk c9Entry :=
  claim9_theorem.2.1 (fun _ => none) c9Entry c9Entry (by decide) (by decide)



theorem strLe_total : ∀ a b : Str, strLe a b = true ∨ strLe b a = true := by
  intro a
  induction a with
  | nil => intro b; exact Or.inl rfl
  | cons x xs ih =>
    intro b
    cases b with
    | nil => exact Or.inr rfl
    | cons y ys =>
      simp only [strLe]
      rcases Nat.lt_trichotomy x.toNat y.toNat with h | h | h
      · exact Or.inl (by rw [if_pos h])
      · have h1 : ¬ x.toNat < y.toNat := by omega
        have h2 : ¬ y.toNat < x.toNat := by omega
        rcases ih ys with hx | hx
        · exact Or.inl (by rw [if_neg h1, if_neg h2]; exact hx)
        · exact Or.inr (by rw [if_neg h2, if_neg h1]; exact hx)
      · exact Or.inr (by rw [if_pos h])

theorem strLe_trans : ∀ a b c : Str, strLe a b = true → strLe b c = true → strLe a c = true := by
  intro a
  induction a with
  | nil => intro b c h1 h2; rfl
  | cons x xs ih =>
    intro b c h1 h2
    cases b with
    | nil => simp [strLe] at h1
    | cons y ys =>
      cases c with
      | nil => simp [strLe] at h2
      | cons z zs =>
        simp only [strLe] at h1 h2 ⊢
        by_cases hxy : x.toNat < y.toNat
        · by_cases hyz : y.toNat < z.toNat
          · rw [if_pos (by omega)]
          · rw [if_neg hyz] at h2
            by_cases hzy : z.toNat < y.toNat
            · rw [if_pos hzy] at h2
              cases h2
            · rw [if_pos (by omega)]
        · rw [if_neg hxy] at h1
          by_cases hyx : y.toNat < x.toNat
          · rw [if_pos hyx] at h1
            cases h1
          · rw [if_neg hyx] at h1
            by_cases hyz : y.toNat < z.toNat
            · rw [if_pos (by omega)]
            · rw [if_neg hyz] at h2
              by_cases hzy : z.toNat < y.toNat
              · rw [if_pos hzy] at h2
                cases h2
              · rw [if_neg hzy] at h2
                rw [if_neg (by omega), if_neg (by omega)]
                exact ih ys zs h1 h2

instance : IsTotal Packref nameLe := ⟨fun a b => strLe_total a.name b.name⟩

instance : IsTrans Packref nameLe := ⟨fun a b c => strLe_trans a.name b.name c.name⟩

/-! ### Claim C7: packed-file output format -/

/-- Claim C7: every packed-refs file written by the backend (compress and
the post-delete repack both go through `packed_write`, the sole writer)
lists its entries sorted ascending lexicographically by name (strcmp
order); the content is the header line followed by the serialized entries,
where `serializeEntry` is the embedding of `packed_write_ref`:
`<hex-oid> <name>\n` followed by `^<hex-peel>\n` exactly when HAS_PEEL is
set. The emitted entries are (name-wise) a permutation of the cache. -/
theorem claim7_theorem : ∀ (odb : Odb) (s s' : State),
    packedWrite odb s = (s', .ok ()) →
    ∃ es : List Packref,
      s'.cache = some es ∧
      s'.packedFile =
        some (packedHdrChars ++ '\n' :: (es.map serializeEntry).flatten, s.cacheTime + 1) ∧
      List.Pairwise nameLe es ∧
      (es.map (fun e => e.name)).Perm ((cacheList s).map (fun e => e.name)) := by
  intro odb s s' hw
  obtain ⟨r, l, pf, c, t, pm⟩ := s
  rcases c with _ | m
  · simp [packedWrite] at hw
  · rcases hgo : writeEntriesGo odb (List.insertionSort nameLe m) with err | ⟨es, body⟩ <;>
      simp only [packedWrite, hgo] at hw
    · simp at hw
    · simp only [Prod.mk.injEq] at hw
      obtain ⟨hs', -⟩ := hw
      subst hs'
      obtain ⟨hn, hb, -⟩ := writeEntriesGo_shape hgo
      refine ⟨es, rfl, ?_, ?_, ?_⟩
      · rw [hb]
      · have hsorted : List.Pairwise nameLe (List.insertionSort nameLe m) :=
          List.sorted_insertionSort nameLe m
        have h1 : List.Pairwise (fun a b : Str => strLe a b = true)
            ((List.insertionSort nameLe m).map (fun e => e.name)) :=
          List.pairwise_map.2 hsorted
        rw [← hn] at h1
        exact (@List.pairwise_map Packref Str (fun e => e.name)
          (fun a b => strLe a b = true) es).1 h1
      · rw [hn]
        simp only [cacheList, Option.getD]
        exact (List.perm_insertionSort nameLe m).map (fun e => e.name)

def c7EntryA : Packref :=
  Packref.mk (List.replicate 20 170) zeroOid false false false false ("refs/heads/b".data)

def c7EntryB : Packref :=
  Packref.mk (List.replicate 20 1) (List.replicate 20 170) true false false false
    ("refs/heads/a".data)

/-- A cache with two packed entries listed out of name order. -/
def c7State : State :=
  State.mk ("r".data) [] none (some [c7EntryA, c7EntryB]) 0 PeelMode.peelNone

def c7Odb : Odb := fun _ => some (false, zeroOid)

theorem claim7_witness :
    ∃ es : List Packref,
      (packedWrite c7Odb c7State).1.cache = some es ∧
      (packedWrite c7Odb c7State).1.packedFile =
        some (packedHdrChars ++ '\n' :: (es.map serializeEntry).flatten,
          c7State.cacheTime + 1) ∧
      List.Pairwise nameLe es ∧
      (es.map (fun e => e.name)).Perm ((cacheList c7State).map (fun e => e.name)) :=
  claim7_theorem c7Odb c7State (packedWrite c7Odb c7State).1 (by decide)

theorem packedWrite_error {odb : Odb} {s : State} {err : Err}
    (h : (packedWrite odb s).2 = .error err) :
    err = Err.odbFail ∨ (err = Err.ioErr ∧ s.cache = none) := by
  obtain ⟨r, l, pf, c, t, pm⟩ := s
  rcases c with _ | m
  · simp only [packedWrite] at h
    simp at h
    exact Or.inr ⟨h.symm, rfl⟩
  · rcases hgo : writeEntriesGo odb (List.insertionSort nameLe m) with err2 | ⟨es, body⟩ <;>
      simp only [packedWrite, hgo] at h
    · simp at h
      exact Or.inl (h ▸ writeEntriesGo_error hgo)
    · simp at h

/-! ### Claim C8: delete error kinds -/

/-- Claim C8 (amended): delete succeeds, or fails with NotFound exactly when
neither a loose file nor a packed entry existed; besides I/O errors (not
producible in this pure model) it can ALSO fail with CorruptPackedRefs
(the cache refresh parses a corrupt packed file) or ObjectDbFailure (the
post-delete repack fails to peel an entry); no other kind is produced. -/
theorem claim8_theorem : ∀ (odb : Odb) (s : State) (n : Str),
    (∀ err, (refdbDelete odb s n).2 = .error err →
      err = Err.notFound ∨ err = Err.corruptPacked ∨ err = Err.odbFail) ∧
    ((refdbDelete odb s n).2 = .error Err.notFound →
      looseHas s.loose n = false ∧
      mapFind (cacheList (packedLoad { s with loose := looseRemove s.loose n }).1) n
        = none) := by
  intro odb s n
  constructor
  · intro err h
    simp only [refdbDelete] at h
    rcases hP : packedLoad { s with loose := looseRemove s.loose n } with ⟨s2, e2⟩
    rw [hP] at h
    rcases e2 with _ | err2
    · simp only [] at h
      rcases hmf : mapFind (cacheList s2) n with _ | entry <;> rw [hmf] at h
      · simp only [] at h
        split at h
        · cases h
        · simp at h
          exact Or.inl h.symm
      · simp only [] at h
        rcases packedWrite_error h with h1 | ⟨h1, h2⟩
        · exact Or.inr (Or.inr h1)
        · cases h2
    · simp only [] at h
      simp at h
      have h2 : err2 = Err.corruptPacked := packedLoad_error (by rw [hP])
      exact Or.inr (Or.inl (h ▸ h2))
  · intro h
    simp only [refdbDelete] at h
    rcases hP : packedLoad { s with loose := looseRemove s.loose n } with ⟨s2, e2⟩
    rw [hP] at h
    rcases e2 with _ | err2
    · simp only [] at h
      rcases hmf : mapFind (cacheList s2) n with _ | entry <;> rw [hmf] at h
      · simp only [] at h
        split at h
        · simp at h
        · rename_i hld
          refine ⟨by simpa using hld, ?_⟩
          rfl
      · simp only [] at h
        rcases packedWrite_error h with h1 | ⟨h1, -⟩ <;> cases h1
    · simp at h
      have h2 : err2 = Err.corruptPacked := packedLoad_error (by rw [hP])
      rw [h] at h2
      cases h2

/-- A state with a corrupt packed-refs file, for the C8 counterexample. -/
def c8State : State :=
  State.mk ("r".data) [] (some ("bogus\n".data, 5)) (some []) 0 PeelMode.peelNone

/-- Claim C8 counterexample: with a corrupt packed-refs file on disk,
delete fails with CorruptPackedRefs — an error kind outside the claim's
`NotFound | Io`. -/
theorem claim8_counterexample :
    (refdbDelete (fun _ => none) c8State ("refs/heads/a".data)).2 =
      .error Err.corruptPacked ∧
    Err.corruptPacked ≠ Err.notFound ∧ Err.corruptPacked ≠ Err.ioErr := by
  decide

/-- An empty repository state for the C8 witness. -/
def c8WitnessState : State := State.mk ("r".data) [] none (some []) 0 PeelMode.peelNone

/-- Witness for C8: in an empty repository delete reports NotFound, and
indeed neither representation held the name. -/
theorem claim8_witness :
    looseHas c8WitnessState.loose ("refs/heads/a".data) = false ∧
    mapFind
      (cacheList (packedLoad
        { c8WitnessState with
            loose := looseRemove c8WitnessState.loose ("refs/heads/a".data) }).1)
      ("refs/heads/a".data) = none :=
  (claim8_theorem (fun _ => none) c8WitnessState ("refs/heads/a".data)).2 (by decide)

/-! ### Round-trip lemmas for the loose format -/


theorem hexVal_hexDigit : ∀ n : Nat, n < 16 → hexVal (hexDigit n) = some n := by
  intro n h
  interval_cases n <;> decide

theorem oidAux_roundtrip : ∀ (l : List Nat), (∀ b ∈ l, b < 256) →
    ∀ r : Str, oidAux l.length ((l.map byteHex).flatten ++ r) = some l := by
  intro l
  induction l with
  | nil => intro h r; rfl
  | cons b tl ih =>
    intro h r
    have hb : b < 256 := h b (List.mem_cons_self b tl)
    have h1 : b / 16 < 16 := by omega
    have h2 : b % 16 < 16 := by omega
    simp only [List.map_cons, List.flatten_cons, byteHex, List.cons_append, List.length_cons,
      List.nil_append]
    rw [oidAux]
    rw [hexVal_hexDigit _ h1, hexVal_hexDigit _ h2,
      ih (fun x hx => h x (List.mem_cons_of_mem b hx)) r]
    show some ((16 * (b / 16) + b % 16) :: tl) = some (b :: tl)
    have hbb : 16 * (b / 16) + b % 16 = b := by omega
    rw [hbb]

theorem oidFmt_length : ∀ l : Oid, (oidFmt l).length = 2 * l.length := by
  intro l
  induction l with
  | nil => rfl
  | cons b tl ih =>
    simp only [oidFmt, List.map_cons, List.flatten_cons, List.length_append, byteHex,
      List.length_cons, List.length_nil, List.length_map] at ih ⊢
    omega

theorem validOidB_parts {o : Oid} (h : validOidB o = true) :
    o.length = 20 ∧ ∀ b ∈ o, b < 256 := by
  unfold validOidB at h
  simp only [Bool.and_eq_true, beq_iff_eq, List.all_eq_true, decide_eq_true_eq] at h
  exact ⟨h.1, h.2⟩

theorem looseParseOid_roundtrip {o : Oid} (h : validOidB o = true) :
    looseParseOid (oidFmt o ++ ['\n']) = some o := by
  obtain ⟨hl, hb⟩ := validOidB_parts h
  have hfmtlen : (oidFmt o).length = 40 := by rw [oidFmt_length]; omega
  unfold looseParseOid
  rw [if_neg (by simp [hfmtlen])]
  have hoid : oidFromChars (oidFmt o ++ ['\n']) = some o := by
    unfold oidFromChars
    rw [show (20 : Nat) = o.length from hl.symm]
    exact oidAux_roundtrip o hb ['\n']
  rw [hoid]
  have hget : (oidFmt o ++ ['\n']).get? 40 = some '\n' := by
    rw [← hfmtlen]
    exact List.get?_concat_length _ _
  rw [hget]
  rfl

theorem hexDigit_ne_r : ∀ k : Nat, k < 16 → ('r' == hexDigit k) = false := by
  intro k h
  interval_cases k <;> decide

theorem symref_not_prefix_of_fmt {o : Oid} (h : validOidB o = true) :
    symrefChars.isPrefixOf (oidFmt o ++ ['\n']) = false := by
  obtain ⟨hl, hb⟩ := validOidB_parts h
  cases o with
  | nil => simp at hl
  | cons b tl =>
    have hbb : b < 256 := hb b (List.mem_cons_self b tl)
    have h1 : b / 16 < 16 := by omega
    have hsym : symrefChars = 'r' :: "ef: ".data := rfl
    rw [hsym]
    simp only [oidFmt, List.map_cons, List.flatten_cons, byteHex, List.cons_append]
    rw [List.isPrefixOf]
    rw [hexDigit_ne_r _ h1]
    rfl

theorem printable_not_ws {c : Char} (h : printableChar c = true) : isWs c = false := by
  unfold printableChar at h
  simp only [Bool.and_eq_true, decide_eq_true_eq] at h
  simp only [isWs, Bool.or_eq_false_iff, decide_eq_false_iff_not]
  omega

theorem validRefName_parts {n : Str} (h : validRefName n = true) :
    n ≠ [] ∧ ∀ c ∈ n, printableChar c = true := by
  unfold validRefName at h
  simp only [Bool.and_eq_true, Bool.not_eq_true', List.isEmpty_eq_false,
    List.all_eq_true] at h
  exact ⟨h.1.1.1, h.1.1.2⟩

theorem rtrim_append_last {pre t : Str} (hne : t ≠ [])
    (hws : ∀ c ∈ t, isWs c = false) :
    rtrim (pre ++ t ++ ['\n']) = pre ++ t := by
  obtain ⟨ts, a, hta⟩ := (List.eq_nil_or_concat t).resolve_left hne
  subst hta
  have ha : isWs a = false := hws a (by simp)
  have hnl : isWs '\n' = true := rfl
  simp [rtrim, List.reverse_append, List.dropWhile_cons, ha, hnl]


theorem looseGet_map_replace : ∀ (l : List (Str × Str)) (n c : Str),
    looseHas l n = true →
    looseGet (l.map (fun p => if p.1 == n then (n, c) else p)) n = some c := by
  intro l n c
  induction l with
  | nil => intro h; simp [looseHas, looseGet] at h
  | cons p rest ih =>
    intro h
    by_cases hp : p.1 = n
    · simp [looseGet, List.find?_cons, hp]
    · have h' : looseHas rest n = true := by
        simp [looseHas, looseGet, List.find?_cons, hp] at h
        simpa [looseHas, looseGet] using h
      have := ih h'
      simp [looseGet, List.find?_cons, hp] at this ⊢
      exact this
  
theorem looseGet_append_single : ∀ (l : List (Str × Str)) (n c : Str),
    looseHas l n = false →
    looseGet (l ++ [(n, c)]) n = some c := by
  intro l n c
  induction l with
  | nil => intro h; simp [looseGet, List.find?_cons]
  | cons p rest ih =>
    intro h
    by_cases hp : p.1 = n
    · simp [looseHas, looseGet, List.find?_cons, hp] at h
    · have h' : looseHas rest n = false := by
        simpa [looseHas, looseGet, List.find?_cons, hp] using h
      have := ih h'
      simp [looseGet, List.find?_cons, hp] at this ⊢
      exact this

theorem looseGet_looseSet (l : List (Str × Str)) (n c : Str) :
    looseGet (looseSet l n c) n = some c := by
  unfold looseSet
  by_cases h : looseHas l n = true
  · rw [if_pos h]
    exact looseGet_map_replace l n c h
  · rw [if_neg h]
    exact looseGet_append_single l n c (by simpa using h)


theorem looseLookup_direct {st : State} {nm : Str} {o p : Oid}
    (hvo : validOidB o = true)
    (hget : looseGet st.loose nm = some (serializeLoose (.direct nm o p))) :
    looseLookup st nm = .ok (.direct nm o zeroOid) := by
  unfold looseLookup
  rw [hget]
  simp only [serializeLoose]
  rw [symref_not_prefix_of_fmt hvo]
  simp only [Bool.false_eq_true, if_false]
  rw [looseParseOid_roundtrip hvo]

theorem looseLookup_symbolic {st : State} {nm t : Str}
    (hvt : validRefName t = true)
    (hget : looseGet st.loose nm = some (serializeLoose (.symbolic nm t))) :
    looseLookup st nm = .ok (.symbolic nm t) := by
  obtain ⟨htne, htp⟩ := validRefName_parts hvt
  have hws : ∀ c ∈ t, isWs c = false := fun c hc => printable_not_ws (htp c hc)
  have hpre : symrefChars.isPrefixOf (symrefChars ++ t ++ ['\n']) = true := by
    rw [List.isPrefixOf_iff_prefix, List.append_assoc]
    exact List.prefix_append _ _
  have htrim : rtrim (symrefChars ++ t ++ ['\n']) = symrefChars ++ t :=
    rtrim_append_last htne hws
  have hlen : ¬ (symrefChars ++ t).length < symrefChars.length + 1 := by
    have : t.length ≠ 0 := fun hh => htne (List.length_eq_zero.1 hh)
    simp only [List.length_append]
    omega
  have hdrop : (symrefChars ++ t).drop symrefChars.length = t := List.drop_left _ _
  unfold looseLookup
  rw [hget]
  simp only [serializeLoose]
  rw [hpre]
  simp only [if_true]
  rw [htrim, if_neg hlen, hdrop]

/-! ### Claim C6: write / lookup round trip -/

/-- Claim C6: for every valid reference (valid name; for a symbolic
reference a valid target name, for a direct one a well-formed oid), a
successful `write` is followed by a `lookup` of the same name returning a
reference of the same variant with the same target (oids compare equal, the
peel slot is not part of the comparison, matching the spec's `lookup(R.name)
== R` with Reference equality on name and target). -/
theorem claim6_theorem : ∀ (s : State) (r : Reference) (force : Bool) (s' : State),
    validReference r = true →
    refdbWrite s r force = (s', .ok ()) →
    ∃ r', (refdbLookup s' (refName r)).2 = .ok r' ∧ sameRefValue r' r = true := by
  intro s r force s' hval hw
  unfold refdbWrite at hw
  rcases hpa : referencePathAvailable s (refName r) none force with ⟨s1, e1⟩
  rw [hpa] at hw
  rcases e1 with e1 | u
  · simp at hw
  · unfold looseWrite at hw
    simp only [Prod.mk.injEq] at hw
    obtain ⟨hs', -⟩ := hw
    subst hs'
    have hget : looseGet (looseSet s1.loose (refName r) (serializeLoose r)) (refName r) =
        some (serializeLoose r) := looseGet_looseSet _ _ _
    cases r with
    | direct nm o p =>
      have hvo : validOidB o = true := by
        unfold validReference at hval
        simp only [Bool.and_eq_true] at hval
        exact hval.2
      have hll : looseLookup
          { s1 with loose := looseSet s1.loose nm (serializeLoose (.direct nm o p)) } nm =
          .ok (.direct nm o zeroOid) :=
        looseLookup_direct hvo hget
      refine ⟨.direct nm o zeroOid, ?_, by simp [sameRefValue]⟩
      unfold refdbLookup
      rw [show refName (Reference.direct nm o p) = nm from rfl, hll]
    | symbolic nm t =>
      have hvt : validRefName t = true := by
        unfold validReference at hval
        simp only [Bool.and_eq_true] at hval
        exact hval.2
      have hll : looseLookup
          { s1 with loose := looseSet s1.loose nm (serializeLoose (.symbolic nm t)) } nm =
          .ok (.symbolic nm t) :=
        looseLookup_symbolic hvt hget
      refine ⟨.symbolic nm t, ?_, by simp [sameRefValue]⟩
      unfold refdbLookup
      rw [show refName (Reference.symbolic nm t) = nm from rfl, hll]

/-- An empty repository state for the C6 witness. -/
def c6State : State := State.mk ("r".data) [] none none 0 PeelMode.peelNone

/-- The written reference of the C6 witness. -/
def c6Ref : Reference :=
  Reference.direct ("refs/heads/master".data) (List.replicate 20 170) zeroOid

/-- Witness for C6 at a concrete write of `refs/heads/master`. -/
theorem claim6_witness :
    validReference c6Ref = true ∧
    ∃ r', (refdbLookup (refdbWrite c6State c6Ref false).1 (refName c6Ref)).2 = .ok r' ∧
      sameRefValue r' c6Ref = true :=
  ⟨by decide,
    claim6_theorem c6State c6Ref false (refdbWrite c6State c6Ref false).1 (by decide) (by decide)⟩


theorem rtrim_prefix (c : Str) : rtrim c <+: c := by
  unfold rtrim
  have hsuf : c.reverse.dropWhile isWs <:+ c.reverse := List.dropWhile_suffix _
  obtain ⟨pre, hpre⟩ := hsuf
  refine ⟨pre.reverse, ?_⟩
  have := congrArg List.reverse hpre
  simpa [List.reverse_append] using this

theorem symref_no_oid {c : Str} (hpre : symrefChars.isPrefixOf c = true) :
    looseParseOid (rtrim c) = none := by
  by_cases hlen : (rtrim c).length < 40
  · unfold looseParseOid
    rw [if_pos hlen]
  · have hrp : rtrim c <+: c := rtrim_prefix c
    have hcp : c.head? = some 'r' := by
      rw [List.isPrefixOf_iff_prefix] at hpre
      obtain ⟨t, ht⟩ := hpre
      rw [← ht]
      rfl
    have hne : rtrim c ≠ [] := by
      intro hnil
      rw [hnil] at hlen
      simp at hlen
    have hoid : oidFromChars (rtrim c) = none := by
      obtain ⟨t, ht⟩ := hrp
      cases hr : rtrim c with
      | nil => exact absurd hr hne
      | cons x xs =>
        have hx : x = 'r' := by
          rw [hr] at ht
          rw [← ht] at hcp
          simpa using hcp
        subst hx
        cases xs with
        | nil => rfl
        | cons y ys =>
          show oidAux 20 ('r' :: y :: ys) = none
          have hr' : hexVal 'r' = none := rfl
          rw [oidAux, hr']
    unfold looseParseOid
    rw [if_neg hlen, hoid]

theorem looseToPackref_symref {n c : Str} (hpre : symrefChars.isPrefixOf c = true) :
    looseToPackref n c = none := by
  unfold looseToPackref
  rw [symref_no_oid hpre]
  rfl

theorem loadLooseGo_fails : ∀ (files : List (Str × Str)) (m : RefMap),
    (∃ p ∈ files, looseToPackref p.1 p.2 = none) →
    (loadLooseGo m files).2 = some Err.corruptLoose := by
  intro files
  induction files with
  | nil =>
    rintro m ⟨p, hp, -⟩
    simp at hp
  | cons q rest ih =>
    rintro m ⟨p, hp, hnone⟩
    obtain ⟨n, c⟩ := q
    rw [loadLooseGo]
    rcases hlp : looseToPackref n c with _ | e
    · rfl
    · rcases List.mem_cons.1 hp with hp1 | hp1
      · rw [hp1] at hnone
        rw [hnone] at hlp
        cases hlp
      · exact ih _ ⟨p, hp1, hnone⟩

theorem loadLooseGo_ok : ∀ (files : List (Str × Str)) (m : RefMap),
    (loadLooseGo m files).2 = none →
    ∀ p ∈ files, (looseToPackref p.1 p.2).isSome = true := by
  intro files
  induction files with
  | nil => intro m h p hp; simp at hp
  | cons q rest ih =>
    intro m h p hp
    obtain ⟨n, c⟩ := q
    rw [loadLooseGo] at h
    rcases hlp : looseToPackref n c with _ | e <;> rw [hlp] at h
    · cases h
    · rcases List.mem_cons.1 hp with hp1 | hp1
      · rw [hp1, hlp]
        rfl
      · exact ih _ h p hp1

/-! ### Claim C10: compress and symbolic loose references -/

/-- Claim C10 (amended): provided the packed-refs refresh succeeds, if any
loose file under `refs/` holds a symbolic reference (content beginning
`ref: `) then compress fails with a corrupt-LOOSE-reference error before
writing any packed file, leaving the on-disk state (loose files and the
packed file) unchanged; and compress succeeds only when every loose file
under `refs/` parses (right-trimmed) as a direct object-id reference. When
the packed refresh itself fails, compress instead fails with the
corrupt-PACKED error (see the counterexample). -/
theorem claim10_theorem : ∀ (odb : Odb) (s : State),
    (packedLoad s).2 = none →
    ((∃ p ∈ refsFiles s, symrefChars.isPrefixOf p.2 = true) →
      (refdbCompress odb s).2 = .error Err.corruptLoose ∧
      (refdbCompress odb s).1.packedFile = s.packedFile ∧
      (refdbCompress odb s).1.loose = s.loose) ∧
    ((refdbCompress odb s).2 = .ok () →
      ∀ p ∈ refsFiles s, (looseParseOid (rtrim p.2)).isSome = true) := by
  intro odb s hload
  have hps : packedLoad s = ((packedLoad s).1, none) := by rw [← hload]
  have hl1 : (packedLoad s).1.loose = s.loose := packedLoad_loose s
  have hpf1 : (packedLoad s).1.packedFile = s.packedFile := packedLoad_packedFile s
  have hrf : refsFiles (packedLoad s).1 = refsFiles s := by
    unfold refsFiles
    rw [hl1]
  obtain ⟨m, hm⟩ := packedLoad_cache_some hload
  have hcomp : refdbCompress odb s =
      (match packedLoadloose (packedLoad s).1 with
        | (s2, some e) => (s2, .error e)
        | (s2, none) => packedWrite odb s2) := by
    unfold refdbCompress
    rw [hps]
  have hplshape : packedLoadloose (packedLoad s).1 =
      ({ (packedLoad s).1 with
          cache := some (loadLooseGo m (refsFiles (packedLoad s).1)).1 },
        (loadLooseGo m (refsFiles (packedLoad s).1)).2) := by
    unfold packedLoadloose
    rw [hm]
  constructor
  · rintro ⟨p, hp, hsym⟩
    have hfail : (loadLooseGo m (refsFiles (packedLoad s).1)).2 = some Err.corruptLoose :=
      loadLooseGo_fails _ m ⟨p, by rw [hrf]; exact hp, looseToPackref_symref hsym⟩
    have hpl : packedLoadloose (packedLoad s).1 =
        ({ (packedLoad s).1 with
            cache := some (loadLooseGo m (refsFiles (packedLoad s).1)).1 },
          some Err.corruptLoose) := by
      rw [hplshape, hfail]
    rw [hcomp, hpl]
    exact ⟨rfl, hpf1, hl1⟩
  · intro hok
    rw [hcomp] at hok
    rcases hll : packedLoadloose (packedLoad s).1 with ⟨s2, e2⟩
    rw [hll] at hok
    rcases e2 with _ | err
    · have hgo : (loadLooseGo m (refsFiles (packedLoad s).1)).2 = none := by
        rw [hplshape] at hll
        simp only [Prod.mk.injEq] at hll
        exact hll.2
      intro p hp
      have hsome := loadLooseGo_ok _ m hgo p (by rw [hrf]; exact hp)
      unfold looseToPackref at hsome
      simpa using hsome
    · simp at hok

/-- A state with a corrupt packed-refs file AND a symbolic loose reference
under refs/. -/
def c10State : State :=
  State.mk ("r".data) [("refs/heads/sym".data, "ref: refs/heads/a\n".data)]
    (some ("bogus\n".data, 5)) (some []) 0 PeelMode.peelNone

/-- Claim C10 counterexample: with the packed file corrupt as well, the
symbolic loose file is never reached — compress fails with the
corrupt-PACKED error, not the corrupt-loose-reference error the claim
demands. -/
theorem claim10_counterexample :
    (∃ p ∈ refsFiles c10State, symrefChars.isPrefixOf p.2 = true) ∧
    (refdbCompress (fun _ => none) c10State).2 = .error Err.corruptPacked ∧
    Err.corruptPacked ≠ Err.corruptLoose := by
  decide

/-- A state with a symbolic loose reference and no packed file. -/
def c10WitnessState : State :=
  State.mk ("r".data) [("refs/heads/sym".data, "ref: refs/heads/a\n".data)]
    none (some []) 0 PeelMode.peelNone

/-- Witness for C10: with a healthy (absent) packed file, the symbolic
loose file makes compress fail with the corrupt-loose error and the disk
untouched. -/
theorem claim10_witness :
    (refdbCompress (fun _ => none) c10WitnessState).2 = .error Err.corruptLoose ∧
    (refdbCompress (fun _ => none) c10WitnessState).1.packedFile = c10WitnessState.packedFile ∧
    (refdbCompress (fun _ => none) c10WitnessState).1.loose = c10WitnessState.loose :=
  (claim10_theorem (fun _ => none) c10WitnessState (by decide)).1 (by decide)

end RefdbFs
